import Mathlib

/-!
Verification of the ossify storage core (src/storage.rs, src/storage/utils/path.rs)
against its natural-language specification.

The Rust code is shallowly embedded: strings model UTF-8 paths at the level of
characters, the OpenDAL backend is modelled per §6 of the spec as a function
from a path to the entries of one level (or as a finite tree of entries), and
every stateful routine is rendered as a pure function from its inputs to the
sequence of observable actions/output lines it produces.
-/

namespace Ossify

/-! ## String primitives mirroring the Rust `str` / `Path` operations used by the code -/

/-- `pre.toList.isPrefixOf s.toList`: Rust `str::starts_with` on `s` with pattern `pre`
(also the prefix test inside `str::strip_prefix`). Char-level, which agrees with
Rust's byte-level test on valid UTF-8. -/
def strStarts (s pre : String) : Bool :=
  pre.toList.isPrefixOf s.toList

/-- Rust `str::ends_with` on `s` with pattern `suf`. -/
def strEnds (s suf : String) : Bool :=
  suf.toList.isSuffixOf s.toList

/-- Rust `str::strip_prefix`: `some` of the suffix after `pre` when `pre` is a
prefix of `s`, `none` otherwise. -/
def rustStrip (s pre : String) : Option String :=
  if pre.toList.isPrefixOf s.toList then
    some (String.mk (s.toList.drop pre.toList.length))
  else none

/-- Rust `str::trim_start_matches('/')`: removes every leading `'/'`. -/
def dropSlashes (s : String) : String :=
  String.mk (s.toList.dropWhile (fun c => c = '/'))

/-- Split a character list on `'/'` (the semantics of `String::split('/')`,
used to model `Path` component decomposition). -/
def splitSlash (cs : List Char) : List (List Char) :=
  cs.foldr
    (fun c acc =>
      if c = '/' then [] :: acc
      else
        match acc with
        | [] => [[c]]
        | a :: rest => (c :: a) :: rest)
    [[]]

/-- Rust `Path::file_name` on Unix: the last component after skipping empty and
`"."` components; `none` when there is no component left or the last one is
`".."` (also for the root path). -/
def rustFileName (p : String) : Option String :=
  match ((splitSlash p.toList).filter (fun s => !s.isEmpty && s != ['.'])).getLast? with
  | none => none
  | some s => if s = ['.', '.'] then none else some (String.mk s)

/-- Rust `Path::join` (`PathBuf::push`) on Unix, rendered back to a string with
`to_string_lossy`: an absolute `child` replaces `base`; otherwise a separator is
inserted unless `base` is empty or already ends with one. -/
def rustJoin (base child : String) : String :=
  if strStarts child "/" then child
  else if base = "" then child
  else if strEnds base "/" then base ++ child
  else base ++ "/" ++ child

/-! ## Path Algebra (src/storage/utils/path.rs) -/

/-- `get_relative_path` from src/storage/utils/path.rs: on equal paths the file
name (empty when absent); otherwise `full_path.strip_prefix(base_path)` with the
unstripped path as fallback, and then `trim_start_matches('/')` applied to the
result of the `unwrap_or`. -/
def get_relative_path (full_path base_path : String) : String :=
  if full_path = base_path then
    (rustFileName full_path).getD ""
  else
    dropSlashes ((rustStrip full_path base_path).getD full_path)

/-- `build_remote_path` from src/storage/utils/path.rs. -/
def build_remote_path (base file_name : String) : String :=
  rustJoin base file_name

/-! ## Mirror-Downloader destination computation (StorageClient::download_recursive) -/

/-- The local destination computed by `download_recursive` for one entry:
`Path::new(local_path).join(entry.path().strip_prefix(remote_path).unwrap_or(entry.path()))`.
Note the code applies the raw `strip_prefix`, not `get_relative_path`, and
`remote_path` here is the per-call listed path — which, below the top level,
the recursion advances to the entry's immediate parent while `local_path`
stays the original destination root (see `download_recursive` further down). -/
def download_dest (local_path remote_path entry_path : String) : String :=
  rustJoin local_path ((rustStrip entry_path remote_path).getD entry_path)

/-! ## Helper lemmas about the string primitives -/

theorem mk_toList (s : String) : String.mk s.toList = s := rfl

theorem toList_append (a b : String) : (a ++ b).toList = a.toList ++ b.toList :=
  String.data_append a b

theorem rustStrip_append (base s : String) : rustStrip (base ++ s) base = some s := by
  unfold rustStrip
  rw [if_pos]
  · rw [toList_append, List.drop_left, mk_toList]
  · rw [toList_append]
    simp

theorem rustStrip_of_not_starts (s pre : String) (h : strStarts s pre = false) :
    rustStrip s pre = none := by
  unfold strStarts at h
  unfold rustStrip
  rw [h]
  simp

theorem append_eq_self_iff (a s : String) : a ++ s = a ↔ s = "" := by
  constructor
  · intro h
    have h2 : (a ++ s).toList = a.toList := by rw [h]
    rw [toList_append] at h2
    have h3 : s.toList = [] := by
      have := congrArg List.length h2
      simp at this
      exact List.eq_nil_of_length_eq_zero this
    have h4 := mk_toList s
    rw [h3] at h4
    exact h4.symm
  · intro h
    subst h
    apply String.ext
    rw [String.data_append]
    show a.data ++ [] = a.data
    simp

theorem dropSlashes_of_not_starts (s : String) (h : strStarts s "/" = false) :
    dropSlashes s = s := by
  unfold strStarts at h
  unfold dropSlashes
  have hd : s.toList.dropWhile (fun c => c = '/') = s.toList := by
    cases hs : s.toList with
    | nil => simp
    | cons c t =>
      rw [hs] at h
      rw [List.dropWhile_cons_of_neg]
      intro hc
      have hc2 : c = '/' := of_decide_eq_true hc
      subst hc2
      simp [List.isPrefixOf] at h
  rw [hd, mk_toList]

/-! ## C3: behaviour of get_relative_path -/

/-- C3 (corrected): `get_relative_path` returns the Rust `file_name` of `fullPath`
(empty when absent) on equal paths, and the suffix after `basePath` with all
leading separators removed when `basePath` is a proper prefix; but when
`fullPath` is NOT prefixed by `basePath` it returns `fullPath` with its leading
separators removed (not the unmodified `fullPath`: `trim_start_matches('/')` is
applied to the fallback too). It is a total function (never fails or panics).
Includes the spec's two concrete examples. -/
theorem get_relative_path_spec (full base s : String) :
    (full = base → get_relative_path full base = (rustFileName full).getD "")
    ∧ (full ≠ base → full = base ++ s → get_relative_path full base = dropSlashes s)
    ∧ (full ≠ base → strStarts full base = false →
        get_relative_path full base = dropSlashes full)
    ∧ get_relative_path "/a/b/c.txt" "/a/b/c.txt" = "c.txt"
    ∧ get_relative_path "/a/b/c.txt" "/a/" = "b/c.txt" := by
  refine ⟨?_, ?_, ?_, by decide, by decide⟩
  · intro h
    unfold get_relative_path
    rw [if_pos h]
  · intro hne hpre
    unfold get_relative_path
    rw [if_neg hne, hpre, rustStrip_append]
    rfl
  · intro hne hns
    unfold get_relative_path
    rw [if_neg hne, rustStrip_of_not_starts full base hns]
    rfl

/-- C3 counterexample: when `fullPath` is not prefixed by `basePath`, the code
does NOT return the unmodified `fullPath`: the leading-slash trim is applied to
the fallback as well. -/
theorem get_relative_path_fallback_cex :
    strStarts "/a/b.txt" "xyz" = false
    ∧ get_relative_path "/a/b.txt" "xyz" = "a/b.txt"
    ∧ get_relative_path "/a/b.txt" "xyz" ≠ "/a/b.txt" := by decide

/-- C3 witness: the amended theorem applied at concrete inputs. -/
theorem get_relative_path_spec_witness :
    get_relative_path "/data/x" "/data/x" = "x"
    ∧ get_relative_path "/data/x/y.txt" "/data/x" = "y.txt" := by
  constructor
  · have h := (get_relative_path_spec "/data/x" "/data/x" "").1 rfl
    rw [h]; decide
  · have h := (get_relative_path_spec "/data/x/y.txt" "/data/x" "/y.txt").2.1
      (by decide) (by decide)
    rw [h]; decide

/-! ## Mirror-Uploader (StorageClient::upload_files / upload_recursive)

The local directory tree is modelled as a finite tree whose node names are the
entry file names reported by `fs::read_dir` (always plain non-empty names
without separators). `entry.path()` is `local_path` joined with the name. -/

/-- A local filesystem subtree: a file with its byte size, or a directory with
its children in the order `read_dir` yields them. -/
inductive LTree where
  | file (name : String) (size : Nat)
  | dir (name : String) (children : List LTree)

/-- The `file_name` of a local child entry (`entry.path().file_name()`). -/
def LTree.lname : LTree → String
  | .file n _ => n
  | .dir n _ => n

/-- `StorageClient::upload_recursive`: for each child of the directory at
`local_path`, the destination is `remote_path / (file_name of local_path) /
child name`; files are streamed there and directories recurse with the child's
local path and the computed destination. Returns the (local, remote) pairs of
every streamed file upload, in traversal order. -/
def upload_recursive : String → String → List LTree → List (String × String)
  | _, _, [] => []
  | local_path, remote_path, c :: rest =>
    let relative_path := (rustFileName local_path).getD local_path
    let local_file_path := rustJoin local_path c.lname
    let remote_file_path := rustJoin (rustJoin remote_path relative_path) c.lname
    (match c with
      | .file _ _ => [(local_file_path, remote_file_path)]
      | .dir _ gc => upload_recursive local_file_path remote_file_path gc)
      ++ upload_recursive local_path remote_path rest
termination_by _ _ l => sizeOf l

/-- C1 (code bug): uploading the tree `d/s/f.txt` to remote anchor `r` streams
the single file to `r/d/s/s/f.txt` — the nested directory name `s` is
duplicated, because the recursive call receives the already-extended remote
destination and then re-appends the subdirectory's own `file_name` once more.
The spec requires `r/d/s/f.txt` (exactly one segment per nesting level). -/
theorem upload_recursive_duplicates_segment :
    upload_recursive "d" "r" [LTree.dir "s" [LTree.file "f.txt" 3]]
      = [("d/s/f.txt", "r/d/s/s/f.txt")]
    ∧ ("r/d/s/s/f.txt" : String) ≠ "r/d/s/f.txt" := by
  constructor
  · simp only [upload_recursive]
    decide
  · decide

/-! ## upload_files pre-condition validation -/

/-- Kind of an existing local path. -/
inductive PathKind where
  | file
  | dir
deriving DecidableEq

/-- An action the uploader may request from the backend. The code never issues
`createDir`; it is included so "the uploader never creates a remote root" is a
statement about the embedding, not vacuous by construction. -/
inductive RemoteAction where
  | uploadStream (src dst : String)
  | createDir (p : String)
deriving DecidableEq

/-- The environment `upload_files` observes: whether/what the local path is
(`none` = does not exist), the children of the local directory (when it is
one), and whether `operator.exists(remote_path)` reports the remote anchor. -/
structure UploadInput where
  localKind : Option PathKind
  localChildren : List LTree
  remoteExists : Bool

/-- `StorageClient::upload_files`: validates the local path, then the remote
anchor, then dispatches on (kind, recursive); returns the error message or the
list of backend actions, in the order the code would issue them. -/
def upload_files (inp : UploadInput) (local_path remote_path : String)
    (is_recursive : Bool) : Except String (List RemoteAction) :=
  match inp.localKind with
  | none => .error "Local path cannot exits"
  | some k =>
    if inp.remoteExists = false then .error "Remote path does not exits!"
    else if k = PathKind.file ∧ is_recursive = false then
      let file_name := (rustFileName local_path).getD local_path
      let remote_file_path := rustJoin remote_path file_name
      .ok [RemoteAction.uploadStream local_path remote_file_path]
    else if k = PathKind.dir ∧ is_recursive = true then
      .ok ((upload_recursive local_path remote_path inp.localChildren).map
        (fun a => RemoteAction.uploadStream a.1 a.2))
    else .error "Local path is illegal"

/-- C4 (corrected): the validation structure is as claimed — local existence is
checked first, then the remote anchor, each combination other than
(file, non-recursive) and (dir, recursive) fails before any transfer, and no
branch ever creates a remote directory — but the error messages are the code's
literal strings "Local path cannot exits", "Remote path does not exits!" and
"Local path is illegal", not the spec's wordings. -/
theorem upload_files_spec (inp : UploadInput) (lp rp : String) (rec : Bool) :
    (inp.localKind = none → upload_files inp lp rp rec = .error "Local path cannot exits")
    ∧ (∀ k, inp.localKind = some k → inp.remoteExists = false →
        upload_files inp lp rp rec = .error "Remote path does not exits!")
    ∧ (inp.localKind = some PathKind.file → inp.remoteExists = true → rec = false →
        upload_files inp lp rp rec =
          .ok [RemoteAction.uploadStream lp (rustJoin rp ((rustFileName lp).getD lp))])
    ∧ (inp.localKind = some PathKind.dir → inp.remoteExists = true → rec = true →
        upload_files inp lp rp rec =
          .ok ((upload_recursive lp rp inp.localChildren).map
            (fun a => RemoteAction.uploadStream a.1 a.2)))
    ∧ (inp.localKind = some PathKind.dir → inp.remoteExists = true → rec = false →
        upload_files inp lp rp rec = .error "Local path is illegal")
    ∧ (inp.localKind = some PathKind.file → inp.remoteExists = true → rec = true →
        upload_files inp lp rp rec = .error "Local path is illegal")
    ∧ (∀ acts p, upload_files inp lp rp rec = .ok acts →
        RemoteAction.createDir p ∉ acts) := by
  obtain ⟨lk, lc, re⟩ := inp
  refine ⟨?_, ?_, ?_, ?_, ?_, ?_, ?_⟩
  · intro h
    simp only at h
    subst h
    rfl
  · intro k hk hre
    simp only at hk hre
    subst hk; subst hre
    rfl
  · intro hk hre hrec
    simp only at hk hre
    subst hk; subst hre; subst hrec
    rfl
  · intro hk hre hrec
    simp only at hk hre
    subst hk; subst hre; subst hrec
    rfl
  · intro hk hre hrec
    simp only at hk hre
    subst hk; subst hre; subst hrec
    rfl
  · intro hk hre hrec
    simp only at hk hre
    subst hk; subst hre; subst hrec
    rfl
  · intro acts p hok
    cases lk with
    | none => simp [upload_files] at hok
    | some k =>
      cases re with
      | false => simp [upload_files] at hok
      | true =>
        cases k <;> cases rec <;> simp [upload_files] at hok <;> simp [← hok]

/-- C4 counterexample: for a non-existent local path the failure message is the
code's literal "Local path cannot exits", not "local path does not exist". -/
theorem upload_files_message_cex :
    upload_files ⟨none, [], true⟩ "a" "r" false = .error "Local path cannot exits"
    ∧ ("Local path cannot exits" : String) ≠ "local path does not exist" := by
  constructor
  · rfl
  · decide

/-- C4 witness: the amended theorem applied at concrete inputs: a single file
upload proceeds and lands at the remote root joined with its file name, and a
directory without the recursive flag is rejected. -/
theorem upload_files_spec_witness :
    upload_files ⟨some PathKind.file, [], true⟩ "a/b.txt" "r" false =
      .ok [RemoteAction.uploadStream "a/b.txt" "r/b.txt"]
    ∧ upload_files ⟨some PathKind.dir, [], true⟩ "a" "r" false =
      .error "Local path is illegal" := by
  constructor
  · have h := (upload_files_spec ⟨some PathKind.file, [], true⟩ "a/b.txt" "r" false).2.2.1
      rfl rfl rfl
    have e : rustJoin "r" ((rustFileName "a/b.txt").getD "a/b.txt") = "r/b.txt" := by decide
    rw [h, e]
  · exact (upload_files_spec ⟨some PathKind.dir, [], true⟩ "a" "r" false).2.2.2.2.1
      rfl rfl rfl

/-! ## format_size (the human-readable size formatter)

Rust works in `f64`. All the floats reachable here are exact binary rationals:
`size as f64` rounds the integer to 53 significant bits (ties to even) and the
repeated divisions by 1024 only shift the exponent. We therefore model the
pipeline exactly over `ℚ`: the conversion, the division loop, and the final
`{:.1}` rendering (decimal rounding of the exact value, ties to even, which is
what Rust's formatter performs on the binary value). -/

/-- Floor of a rational, computed arithmetically (`q.num / q.den` over `ℤ`
equals `⌊q⌋` since `q.den > 0`). -/
def qfloor (q : ℚ) : ℤ :=
  q.num / (q.den : ℤ)

/-- Round to the nearest integer, ties to even — the rounding Rust's `{:.1}`
formatter applies to the (exact) scaled value. -/
def roundTE (q : ℚ) : ℤ :=
  if q - qfloor q < 1/2 then qfloor q
  else if (1 : ℚ)/2 < q - qfloor q then qfloor q + 1
  else if qfloor q % 2 = 0 then qfloor q else qfloor q + 1

/-- Render a nonnegative rational with exactly one decimal place, as Rust's
`{:.1}` does (all reachable values are nonnegative). -/
def fmtOneDec (v : ℚ) : String :=
  let t := (roundTE (10 * v)).toNat
  toString (t / 10) ++ "." ++ toString (t % 10)

/-- Round `n` to a multiple of the grid width `E` (nearest, ties to even),
returned as the multiplier: the mantissa rounding step of `n as f64`. -/
def roundMantissa (n E : ℕ) : ℕ :=
  if 2 * (n % E) < E then n / E
  else if E < 2 * (n % E) then n / E + 1
  else if (n / E) % 2 = 0 then n / E else n / E + 1

/-- `size as f64`: exact below `2^53`; above, round to 53 significant bits,
ties to even. -/
def f64OfNat (n : Nat) : ℚ :=
  if n < 2 ^ 53 then (n : ℚ)
  else (roundMantissa n (2 ^ (Nat.log 2 n - 52)) : ℚ) * 2 ^ (Nat.log 2 n - 52)

/-- The `while size_f >= 1024 && unit_index < UNITS.len() - 1` loop of
`format_size`; the fuel argument is 4, an exact bound since `unit_index`
starts at 0 and the guard requires it to stay below 4. -/
def sizeLoop : Nat → ℚ → Nat → ℚ × Nat
  | 0, v, i => (v, i)
  | fuel + 1, v, i =>
    if 1024 ≤ v ∧ i < 4 then sizeLoop fuel (v / 1024) (i + 1) else (v, i)

/-- The unit suffixes of `format_size`. -/
def sizeUnits : List String := ["B", "K", "M", "G", "T"]

/-- The scaled magnitude `size_f` after the division loop. -/
def sizeNum (n : Nat) : ℚ := (sizeLoop 4 (f64OfNat n) 0).1

/-- The `unit_index` after the division loop. -/
def sizeIdx (n : Nat) : Nat := (sizeLoop 4 (f64OfNat n) 0).2

/-- `format_size` from src/storage.rs: plain bytes with no decimal below 1024,
otherwise the scaled magnitude with one decimal place and the reached unit. -/
def format_size (size : Nat) : String :=
  if size < 1024 then toString size ++ "B"
  else fmtOneDec (sizeNum size) ++ (sizeUnits.getD (sizeIdx size) "")

/-- The numeric value denoted by the formatted output: the displayed one-decimal
number times the reached unit's multiplier (`size` itself below 1024). -/
def sizeDenote (n : Nat) : ℚ :=
  if n < 1024 then (n : ℚ)
  else (((roundTE (10 * sizeNum n)).toNat : ℚ) / 10) * 1024 ^ sizeIdx n

/-! ### Rounding lemmas -/

theorem qfloor_eq_floor (q : ℚ) : qfloor q = ⌊q⌋ :=
  Rat.floor_def.symm

theorem qfloor_le (q : ℚ) : (qfloor q : ℚ) ≤ q := by
  rw [qfloor_eq_floor]
  exact Int.floor_le q

theorem lt_qfloor_add_one (q : ℚ) : q < qfloor q + 1 := by
  rw [qfloor_eq_floor]
  exact_mod_cast Int.lt_floor_add_one q

theorem roundTE_bounds (q : ℚ) : qfloor q ≤ roundTE q ∧ roundTE q ≤ qfloor q + 1 := by
  unfold roundTE
  split_ifs <;> omega

theorem qfloor_mono {q r : ℚ} (h : q ≤ r) : qfloor q ≤ qfloor r := by
  rw [qfloor_eq_floor, qfloor_eq_floor]
  exact Int.floor_mono h

theorem roundTE_mono {q r : ℚ} (h : q ≤ r) : roundTE q ≤ roundTE r := by
  rcases lt_or_eq_of_le (qfloor_mono h) with hf | hf
  · have b1 := roundTE_bounds q
    have b2 := roundTE_bounds r
    omega
  · unfold roundTE
    rw [hf]
    have hfr : q - (qfloor r : ℚ) ≤ r - (qfloor r : ℚ) := by linarith
    split_ifs <;> first
      | omega
      | (exfalso; linarith)

/-- `roundTE` is bounded above by any integer bound strictly above its argument. -/
theorem roundTE_le_of_lt {q : ℚ} {z : ℤ} (h : q < z) : roundTE q ≤ z := by
  have h1 : (qfloor q : ℚ) < (z : ℤ) := lt_of_le_of_lt (qfloor_le q) h
  have h2 : qfloor q < z := by exact_mod_cast h1
  have := roundTE_bounds q
  omega

/-- `roundTE` is bounded below by any integer bound at most its argument. -/
theorem le_roundTE_of_le {q : ℚ} {z : ℤ} (h : (z : ℚ) ≤ q) : z ≤ roundTE q := by
  have h2 : q < qfloor q + 1 := lt_qfloor_add_one q
  have h3 : (z : ℚ) < ((qfloor q + 1 : ℤ) : ℚ) := by push_cast; push_cast at h2; linarith
  have h4 : z < qfloor q + 1 := by exact_mod_cast h3
  have := roundTE_bounds q
  omega

/-! ### Conversion (`as f64`) lemmas -/

theorem roundMantissa_cases (n E : ℕ) :
    roundMantissa n E = n / E ∨ roundMantissa n E = n / E + 1 := by
  unfold roundMantissa
  split_ifs <;> simp

theorem roundMantissa_mono {n m E : ℕ} (h : n ≤ m) :
    roundMantissa n E ≤ roundMantissa m E := by
  rcases Nat.lt_or_ge (n / E) (m / E) with hq | hq
  · unfold roundMantissa
    split_ifs <;> omega
  · have hq2 : n / E = m / E := Nat.le_antisymm (Nat.div_le_div_right h) hq
    have hr : n % E ≤ m % E := by
      have h1 := Nat.div_add_mod n E
      have h2 := Nat.div_add_mod m E
      rw [hq2] at h1
      omega
    unfold roundMantissa
    rw [hq2]
    split_ifs <;> omega

theorem f64OfNat_of_lt {n : ℕ} (h : n < 2 ^ 53) : f64OfNat n = (n : ℚ) := by
  unfold f64OfNat
  rw [if_pos h]

theorem f64OfNat_eq_cast {n : ℕ} (h : ¬ n < 2 ^ 53) :
    f64OfNat n
      = ((roundMantissa n (2 ^ (Nat.log 2 n - 52)) * 2 ^ (Nat.log 2 n - 52) : ℕ) : ℚ) := by
  unfold f64OfNat
  rw [if_neg h]
  push_cast
  ring

theorem log_ge_53 {n : ℕ} (h : 2 ^ 53 ≤ n) : 53 ≤ Nat.log 2 n :=
  (Nat.pow_le_iff_le_log (by norm_num) (by positivity)).mp h

theorem f64_nat_lower {n : ℕ} (h : 2 ^ 53 ≤ n) :
    2 ^ Nat.log 2 n ≤ roundMantissa n (2 ^ (Nat.log 2 n - 52)) * 2 ^ (Nat.log 2 n - 52) := by
  have hl := log_ge_53 h
  have hpow : 2 ^ Nat.log 2 n = 2 ^ 52 * 2 ^ (Nat.log 2 n - 52) := by
    rw [← Nat.pow_add]
    congr 1
    omega
  have hn : 2 ^ 52 * 2 ^ (Nat.log 2 n - 52) ≤ n := by
    rw [← hpow]
    exact Nat.pow_log_le_self 2 (by positivity)
  have hq : 2 ^ 52 ≤ n / 2 ^ (Nat.log 2 n - 52) :=
    (Nat.le_div_iff_mul_le (by positivity)).mpr hn
  have hrm : n / 2 ^ (Nat.log 2 n - 52) ≤ roundMantissa n (2 ^ (Nat.log 2 n - 52)) := by
    rcases roundMantissa_cases n (2 ^ (Nat.log 2 n - 52)) with hc | hc <;> omega
  calc 2 ^ Nat.log 2 n = 2 ^ 52 * 2 ^ (Nat.log 2 n - 52) := hpow
    _ ≤ roundMantissa n (2 ^ (Nat.log 2 n - 52)) * 2 ^ (Nat.log 2 n - 52) :=
        Nat.mul_le_mul_right _ (le_trans hq hrm)

theorem f64_nat_upper {n : ℕ} (h : 2 ^ 53 ≤ n) :
    roundMantissa n (2 ^ (Nat.log 2 n - 52)) * 2 ^ (Nat.log 2 n - 52)
      ≤ 2 ^ (Nat.log 2 n + 1) := by
  have hl := log_ge_53 h
  have hn : n < 2 ^ (Nat.log 2 n + 1) := Nat.lt_pow_succ_log_self (by norm_num) n
  have hpow : 2 ^ (Nat.log 2 n + 1)
      = 2 ^ (Nat.log 2 n + 1 - (Nat.log 2 n - 52)) * 2 ^ (Nat.log 2 n - 52) := by
    rw [← Nat.pow_add]
    congr 1
    omega
  have hq : n / 2 ^ (Nat.log 2 n - 52) < 2 ^ (Nat.log 2 n + 1 - (Nat.log 2 n - 52)) := by
    rw [Nat.div_lt_iff_lt_mul (by positivity)]
    rw [← hpow]
    exact hn
  have hrm : roundMantissa n (2 ^ (Nat.log 2 n - 52)) ≤ n / 2 ^ (Nat.log 2 n - 52) + 1 := by
    rcases roundMantissa_cases n (2 ^ (Nat.log 2 n - 52)) with hc | hc <;> omega
  calc roundMantissa n (2 ^ (Nat.log 2 n - 52)) * 2 ^ (Nat.log 2 n - 52)
      ≤ (n / 2 ^ (Nat.log 2 n - 52) + 1) * 2 ^ (Nat.log 2 n - 52) :=
        Nat.mul_le_mul_right _ hrm
    _ ≤ 2 ^ (Nat.log 2 n + 1 - (Nat.log 2 n - 52)) * 2 ^ (Nat.log 2 n - 52) :=
        Nat.mul_le_mul_right _ (by omega)
    _ = 2 ^ (Nat.log 2 n + 1) := hpow.symm

theorem f64OfNat_nonneg (n : ℕ) : 0 ≤ f64OfNat n := by
  by_cases h : n < 2 ^ 53
  · rw [f64OfNat_of_lt h]
    positivity
  · rw [f64OfNat_eq_cast h]
    positivity

theorem f64OfNat_mono {n m : ℕ} (h : n ≤ m) : f64OfNat n ≤ f64OfNat m := by
  by_cases hn : n < 2 ^ 53
  · by_cases hm : m < 2 ^ 53
    · rw [f64OfNat_of_lt hn, f64OfNat_of_lt hm]
      exact_mod_cast h
    · rw [f64OfNat_of_lt hn, f64OfNat_eq_cast hm]
      have hml := log_ge_53 (show 2 ^ 53 ≤ m by omega)
      have hlow := f64_nat_lower (show 2 ^ 53 ≤ m by omega)
      have h2 : (n : ℕ) ≤ roundMantissa m (2 ^ (Nat.log 2 m - 52)) * 2 ^ (Nat.log 2 m - 52) := by
        have h53 : (2 : ℕ) ^ 53 ≤ 2 ^ Nat.log 2 m := Nat.pow_le_pow_right (by norm_num) hml
        omega
      exact_mod_cast h2
  · have hm : ¬ m < 2 ^ 53 := by omega
    rw [f64OfNat_eq_cast hn, f64OfNat_eq_cast hm]
    have hlog : Nat.log 2 n ≤ Nat.log 2 m := Nat.log_mono_right h
    rcases Nat.lt_or_ge (Nat.log 2 n) (Nat.log 2 m) with hll | hll
    · have hup := f64_nat_upper (show 2 ^ 53 ≤ n by omega)
      have hlow := f64_nat_lower (show 2 ^ 53 ≤ m by omega)
      have hstep : (2 : ℕ) ^ (Nat.log 2 n + 1) ≤ 2 ^ Nat.log 2 m :=
        Nat.pow_le_pow_right (by norm_num) (by omega)
      have : roundMantissa n (2 ^ (Nat.log 2 n - 52)) * 2 ^ (Nat.log 2 n - 52)
          ≤ roundMantissa m (2 ^ (Nat.log 2 m - 52)) * 2 ^ (Nat.log 2 m - 52) := by omega
      exact_mod_cast this
    · have hleq : Nat.log 2 n = Nat.log 2 m := by omega
      rw [hleq]
      have hrm := @roundMantissa_mono n m (2 ^ (Nat.log 2 m - 52)) h
      have : roundMantissa n (2 ^ (Nat.log 2 m - 52)) * 2 ^ (Nat.log 2 m - 52)
          ≤ roundMantissa m (2 ^ (Nat.log 2 m - 52)) * 2 ^ (Nat.log 2 m - 52) :=
        Nat.mul_le_mul_right _ hrm
      exact_mod_cast this

theorem le_f64OfNat {c n : ℕ} (hc : c ≤ 2 ^ 53) (h : c ≤ n) : (c : ℚ) ≤ f64OfNat n := by
  by_cases hn : n < 2 ^ 53
  · rw [f64OfNat_of_lt hn]
    exact_mod_cast h
  · rw [f64OfNat_eq_cast hn]
    have hml := log_ge_53 (show 2 ^ 53 ≤ n by omega)
    have hlow := f64_nat_lower (show 2 ^ 53 ≤ n by omega)
    have h53 : (2 : ℕ) ^ 53 ≤ 2 ^ Nat.log 2 n := Nat.pow_le_pow_right (by norm_num) hml
    have : c ≤ roundMantissa n (2 ^ (Nat.log 2 n - 52)) * 2 ^ (Nat.log 2 n - 52) := by omega
    exact_mod_cast this

/-! ### Division-loop characterisation -/

theorem le_div_1024_iff {x : ℚ} (j : ℕ) :
    1024 ≤ x / 1024 ^ j ↔ (1024:ℚ) ^ (j + 1) ≤ x := by
  rw [le_div_iff₀ (by positivity)]
  constructor <;> intro h
  · calc (1024:ℚ) ^ (j + 1) = 1024 * 1024 ^ j := by ring
      _ ≤ x := h
  · calc (1024:ℚ) * 1024 ^ j = 1024 ^ (j + 1) := by ring
      _ ≤ x := h

theorem sizeLoop_step {f : ℕ} {v : ℚ} {i : ℕ} (h : 1024 ≤ v) (hi : i < 4) :
    sizeLoop (f + 1) v i = sizeLoop f (v / 1024) (i + 1) := by
  simp only [sizeLoop]
  rw [if_pos ⟨h, hi⟩]

theorem sizeLoop_stop {f : ℕ} {v : ℚ} {i : ℕ} (h : ¬ (1024 ≤ v ∧ i < 4)) :
    sizeLoop (f + 1) v i = (v, i) := by
  simp only [sizeLoop]
  rw [if_neg h]

theorem sizeLoop_char {x : ℚ} (hx : 1024 ≤ x) :
    ∃ k, 1 ≤ k ∧ k ≤ 4
      ∧ sizeLoop 4 x 0 = (x / 1024 ^ k, k)
      ∧ (1024:ℚ) ^ k ≤ x
      ∧ (k < 4 → x < 1024 ^ (k + 1)) := by
  have d1 : x / 1024 = x / 1024 ^ 1 := by rw [pow_one]
  have d2 : x / 1024 ^ 1 / 1024 = x / 1024 ^ 2 := by rw [div_div, ← pow_succ]
  have d3 : x / 1024 ^ 2 / 1024 = x / 1024 ^ 3 := by rw [div_div, ← pow_succ]
  have d4 : x / 1024 ^ 3 / 1024 = x / 1024 ^ 4 := by rw [div_div, ← pow_succ]
  have s0 : sizeLoop 4 x 0 = sizeLoop 3 (x / 1024 ^ 1) 1 := by
    rw [← d1]
    exact sizeLoop_step hx (by norm_num)
  by_cases h2 : (1024:ℚ) ^ 2 ≤ x
  · have s1 : sizeLoop 3 (x / 1024 ^ 1) 1 = sizeLoop 2 (x / 1024 ^ 2) 2 := by
      rw [← d2]
      exact sizeLoop_step ((le_div_1024_iff 1).mpr h2) (by norm_num)
    by_cases h3 : (1024:ℚ) ^ 3 ≤ x
    · have s2 : sizeLoop 2 (x / 1024 ^ 2) 2 = sizeLoop 1 (x / 1024 ^ 3) 3 := by
        rw [← d3]
        exact sizeLoop_step ((le_div_1024_iff 2).mpr h3) (by norm_num)
      by_cases h4 : (1024:ℚ) ^ 4 ≤ x
      · have s3 : sizeLoop 1 (x / 1024 ^ 3) 3 = sizeLoop 0 (x / 1024 ^ 4) 4 := by
          rw [← d4]
          exact sizeLoop_step ((le_div_1024_iff 3).mpr h4) (by norm_num)
        refine ⟨4, by norm_num, by norm_num, ?_, h4, by omega⟩
        rw [s0, s1, s2, s3]
        rfl
      · refine ⟨3, by norm_num, by norm_num, ?_, h3, fun _ => not_le.mp h4⟩
        rw [s0, s1, s2]
        exact sizeLoop_stop (fun hc => h4 ((le_div_1024_iff 3).mp hc.1))
    · refine ⟨2, by norm_num, by norm_num, ?_, h2, fun _ => not_le.mp h3⟩
      rw [s0, s1]
      exact sizeLoop_stop (fun hc => h3 ((le_div_1024_iff 2).mp hc.1))
  · refine ⟨1, by norm_num, by norm_num, ?_, by rw [pow_one]; exact hx, fun _ => not_le.mp h2⟩
    rw [s0]
    exact sizeLoop_stop (fun hc => h2 ((le_div_1024_iff 1).mp hc.1))

/-! ### Monotonicity of the denoted output value -/

theorem sizeDenote_of_ge {n : ℕ} (hn : ¬ n < 1024) :
    sizeDenote n
      = (((roundTE (10 * sizeNum n)).toNat : ℚ) / 10) * 1024 ^ sizeIdx n := by
  unfold sizeDenote
  rw [if_neg hn]

theorem f64_ge_1024 {n : ℕ} (hn : ¬ n < 1024) : (1024:ℚ) ≤ f64OfNat n := by
  have h := @le_f64OfNat 1024 n (by norm_num) (by omega)
  exact_mod_cast h

theorem sizeDenote_lower {m : ℕ} (hm : ¬ m < 1024) :
    (1024:ℚ) ^ sizeIdx m ≤ sizeDenote m := by
  obtain ⟨k, hk1, _, heq, hkle, _⟩ := sizeLoop_char (f64_ge_1024 hm)
  have hidx : sizeIdx m = k := by unfold sizeIdx; rw [heq]
  have hnum : sizeNum m = f64OfNat m / 1024 ^ k := by unfold sizeNum; rw [heq]
  have hv : (1:ℚ) ≤ f64OfNat m / 1024 ^ k := by
    rw [le_div_iff₀ (by positivity)]
    calc (1:ℚ) * 1024 ^ k = 1024 ^ k := by ring
      _ ≤ f64OfNat m := hkle
  have hr : (10:ℤ) ≤ roundTE (10 * (f64OfNat m / 1024 ^ k)) := by
    apply le_roundTE_of_le
    push_cast
    linarith
  have ht : (10:ℚ) ≤ ((roundTE (10 * (f64OfNat m / 1024 ^ k))).toNat : ℚ) := by
    have h1 : (10:ℤ).toNat ≤ (roundTE (10 * (f64OfNat m / 1024 ^ k))).toNat :=
      Int.toNat_le_toNat hr
    exact_mod_cast h1
  rw [sizeDenote_of_ge hm, hidx, hnum]
  have h2 : (1:ℚ) ≤ ((roundTE (10 * (f64OfNat m / 1024 ^ k))).toNat : ℚ) / 10 := by
    rw [le_div_iff₀ (by norm_num)]
    linarith
  calc (1024:ℚ) ^ k = 1 * 1024 ^ k := by ring
    _ ≤ ((roundTE (10 * (f64OfNat m / 1024 ^ k))).toNat : ℚ) / 10 * 1024 ^ k :=
        mul_le_mul_of_nonneg_right h2 (by positivity)

theorem sizeDenote_upper {n : ℕ} (hn : ¬ n < 1024) (hlt : sizeIdx n < 4) :
    sizeDenote n ≤ (1024:ℚ) ^ (sizeIdx n + 1) := by
  obtain ⟨k, hk1, _, heq, _, hup⟩ := sizeLoop_char (f64_ge_1024 hn)
  have hidx : sizeIdx n = k := by unfold sizeIdx; rw [heq]
  have hnum : sizeNum n = f64OfNat n / 1024 ^ k := by unfold sizeNum; rw [heq]
  rw [hidx] at hlt
  have hvx : f64OfNat n / 1024 ^ k < 1024 := by
    rw [div_lt_iff₀ (by positivity)]
    calc f64OfNat n < 1024 ^ (k + 1) := hup hlt
      _ = 1024 * 1024 ^ k := by ring
  have hr : roundTE (10 * (f64OfNat n / 1024 ^ k)) ≤ (10240:ℤ) := by
    apply roundTE_le_of_lt
    push_cast
    linarith
  have ht : ((roundTE (10 * (f64OfNat n / 1024 ^ k))).toNat : ℚ) ≤ 10240 := by
    have h1 : (roundTE (10 * (f64OfNat n / 1024 ^ k))).toNat ≤ (10240:ℤ).toNat :=
      Int.toNat_le_toNat hr
    exact_mod_cast h1
  rw [sizeDenote_of_ge hn, hidx, hnum]
  have h2 : ((roundTE (10 * (f64OfNat n / 1024 ^ k))).toNat : ℚ) / 10 ≤ 1024 := by
    rw [div_le_iff₀ (by norm_num)]
    linarith
  calc ((roundTE (10 * (f64OfNat n / 1024 ^ k))).toNat : ℚ) / 10 * 1024 ^ k
      ≤ 1024 * 1024 ^ k := mul_le_mul_of_nonneg_right h2 (by positivity)
    _ = 1024 ^ (k + 1) := by ring

theorem sizeDenote_mono {n m : ℕ} (h : n ≤ m) : sizeDenote n ≤ sizeDenote m := by
  by_cases hm : m < 1024
  · have hn : n < 1024 := by omega
    unfold sizeDenote
    rw [if_pos hn, if_pos hm]
    exact_mod_cast h
  · by_cases hn : n < 1024
    · have h1 : sizeDenote n = (n : ℚ) := by unfold sizeDenote; rw [if_pos hn]
      have h2 := sizeDenote_lower hm
      obtain ⟨k, hk1, _, heq, _, _⟩ := sizeLoop_char (f64_ge_1024 hm)
      have hidx : sizeIdx m = k := by unfold sizeIdx; rw [heq]
      have h3 : (1024:ℚ) ≤ 1024 ^ sizeIdx m := by
        rw [hidx]
        calc (1024:ℚ) = 1024 ^ 1 := by ring
          _ ≤ 1024 ^ k := pow_le_pow_right₀ (by norm_num) hk1
      have h4 : (n : ℚ) < 1024 := by exact_mod_cast hn
      linarith
    · have hxy := f64OfNat_mono h
      obtain ⟨kx, hkx1, hkx4, heqx, hklex, hupx⟩ := sizeLoop_char (f64_ge_1024 hn)
      obtain ⟨ky, hky1, hky4, heqy, hkley, hupy⟩ := sizeLoop_char (f64_ge_1024 hm)
      have hidxx : sizeIdx n = kx := by unfold sizeIdx; rw [heqx]
      have hidxy : sizeIdx m = ky := by unfold sizeIdx; rw [heqy]
      have hnumx : sizeNum n = f64OfNat n / 1024 ^ kx := by unfold sizeNum; rw [heqx]
      have hnumy : sizeNum m = f64OfNat m / 1024 ^ ky := by unfold sizeNum; rw [heqy]
      have hkxy : kx ≤ ky := by
        by_contra hcon
        have hky4 : ky < 4 := by omega
        have h1 : f64OfNat m < 1024 ^ (ky + 1) := hupy hky4
        have h2 : (1024:ℚ) ^ (ky + 1) ≤ 1024 ^ kx := pow_le_pow_right₀ (by norm_num) (by omega)
        linarith
      rcases Nat.lt_or_ge kx ky with hlt | hge
      · have hub := sizeDenote_upper hn (by omega)
        have hlb := sizeDenote_lower hm
        have hmid : (1024:ℚ) ^ (sizeIdx n + 1) ≤ 1024 ^ sizeIdx m := by
          rw [hidxx, hidxy]
          exact pow_le_pow_right₀ (by norm_num) (by omega)
        linarith
      · have hk : kx = ky := by omega
        rw [sizeDenote_of_ge hn, sizeDenote_of_ge hm, hidxx, hidxy, hnumx, hnumy, hk]
        have hrt := roundTE_mono
          (show 10 * (f64OfNat n / 1024 ^ ky) ≤ 10 * (f64OfNat m / 1024 ^ ky) by gcongr)
        have htn : ((roundTE (10 * (f64OfNat n / 1024 ^ ky))).toNat : ℚ)
            ≤ ((roundTE (10 * (f64OfNat m / 1024 ^ ky))).toNat : ℚ) := by
          exact_mod_cast Int.toNat_le_toNat hrt
        gcongr

/-- C7 (confirmed): below 1024 the size is rendered as plain bytes with no
decimal; otherwise the magnitude is divided by 1024 while it stays ≥ 1024 and a
larger unit in {B, K, M, G, T} remains (`sizeIdx` between 1 and 4, the final
magnitude is the size divided by `1024 ^ sizeIdx`, and the loop stops either
below 1024 or at the last unit), rendered with one decimal place; the spec's
three examples hold, and the value denoted by the output is monotone in the
input size. -/
theorem format_size_spec :
    (∀ n : ℕ, n < 1024 → format_size n = toString n ++ "B")
    ∧ format_size 512 = "512B"
    ∧ format_size 2048 = "2.0K"
    ∧ format_size 1572864 = "1.5M"
    ∧ (∀ n : ℕ, ¬ n < 1024 →
        format_size n
            = fmtOneDec (f64OfNat n / 1024 ^ sizeIdx n) ++ sizeUnits.getD (sizeIdx n) ""
          ∧ 1 ≤ sizeIdx n ∧ sizeIdx n ≤ 4
          ∧ (1024:ℚ) ^ sizeIdx n ≤ f64OfNat n
          ∧ (sizeIdx n < 4 → f64OfNat n < 1024 ^ (sizeIdx n + 1)))
    ∧ (∀ n m : ℕ, n ≤ m → sizeDenote n ≤ sizeDenote m) := by
  refine ⟨?_, ?_, ?_, ?_, ?_, fun n m h => sizeDenote_mono h⟩
  · intro n h
    unfold format_size
    rw [if_pos h]
  · unfold format_size
    rw [if_pos (by norm_num)]
    decide
  · norm_num [format_size, sizeNum, sizeIdx, f64OfNat, sizeLoop, fmtOneDec, roundTE,
      qfloor, sizeUnits]
    decide
  · norm_num [format_size, sizeNum, sizeIdx, f64OfNat, sizeLoop, fmtOneDec, roundTE,
      qfloor, sizeUnits]
    decide
  · intro n hn
    obtain ⟨k, hk1, hk4, heq, hkle, hup⟩ := sizeLoop_char (f64_ge_1024 hn)
    have hidx : sizeIdx n = k := by unfold sizeIdx; rw [heq]
    have hnum : sizeNum n = f64OfNat n / 1024 ^ k := by unfold sizeNum; rw [heq]
    refine ⟨?_, by omega, by omega, by rw [hidx]; exact hkle, by rw [hidx]; exact hup⟩
    unfold format_size
    rw [if_neg hn, hnum, hidx]

/-- C7 witness: the theorem applied at concrete inputs. -/
theorem format_size_spec_witness :
    format_size 100 = "100B" ∧ sizeDenote 2048 ≤ sizeDenote 5000 :=
  ⟨(format_size_spec.1 100 (by norm_num)).trans (by decide),
   format_size_spec.2.2.2.2.2 2048 5000 (by norm_num)⟩

/-! ## The remote namespace as a finite tree of entries

Per §6 of the spec the backend's `list(path)` yields one level of entries; a
finite remote store is a tree, and listing a directory returns its children in
backend order. Entry paths follow the OpenDAL convention the code observes:
a directory's path ends with `/`, and a child's path is the parent's path
followed by the child's name. -/

/-- Metadata of one entry: `content_length` and optional modification time. -/
structure EMeta where
  size : Nat
  modified : Option String
deriving DecidableEq

/-- A remote subtree: a file entry or a directory entry with its children in
the order the backend lists them. -/
inductive RTree where
  | file (name : String) (meta : EMeta)
  | dir (name : String) (meta : EMeta) (children : List RTree)

/-- The full entry path of a child of the directory listed at `base`
(directories carry a trailing separator, per the backend convention). -/
def RTree.entryPath (base : String) : RTree → String
  | RTree.file n _ => base ++ n
  | RTree.dir n _ _ => base ++ n ++ "/"

/-- The children a recursive walk descends into (none for a file). -/
def RTree.children : RTree → List RTree
  | RTree.file _ _ => []
  | RTree.dir _ _ c => c

def RTree.isDir : RTree → Bool
  | RTree.file _ _ => false
  | RTree.dir _ _ _ => true

def RTree.rmeta : RTree → EMeta
  | RTree.file _ m => m
  | RTree.dir _ m _ => m

/-! ## Usage Aggregator (StorageClient::calculate_total_usage / disk_usage) -/

/-- `StorageClient::calculate_total_usage`: fold over one level; a directory
entry contributes its recursive total (its own metadata ignored), any other
entry contributes `content_length` and one to the file count. Returns
`(total_size, file_count)`. -/
def calculate_total_usage : List RTree → Nat × Nat
  | [] => (0, 0)
  | RTree.file _ m :: rest =>
    let acc := calculate_total_usage rest
    (m.size + acc.1, 1 + acc.2)
  | RTree.dir _ _ gc :: rest =>
    let sub := calculate_total_usage gc
    let acc := calculate_total_usage rest
    (sub.1 + acc.1, sub.2 + acc.2)
termination_by l => sizeOf l

/-- The sizes of exactly the FILE entries of a subtree, in traversal order
(the declarative reading of the claim). -/
def fileSizes : List RTree → List Nat
  | [] => []
  | RTree.file _ m :: rest => m.size :: fileSizes rest
  | RTree.dir _ _ gc :: rest => fileSizes gc ++ fileSizes rest
termination_by l => sizeOf l

/-- `disk_usage` with `summary = true`: one line with the formatted total and
the path, then the total file count. -/
def disk_usage_summary (ts : List RTree) (p : String) : List String :=
  [format_size (calculate_total_usage ts).1 ++ " " ++ p,
    "Total files: " ++ toString (calculate_total_usage ts).2]

/-- C6 (confirmed): the summary usage equals (sum of the sizes of exactly the
FILE entries in the subtree, number of FILE entries) — directories contribute
nothing directly but are descended into — and the spec's concrete example tree
with file sizes {100, 250, 4096} prints `4.3K <path>` with 3 files. -/
theorem disk_usage_summary_spec :
    (∀ ts : List RTree,
      calculate_total_usage ts = ((fileSizes ts).sum, (fileSizes ts).length))
    ∧ calculate_total_usage
        [RTree.file "a" ⟨100, none⟩,
          RTree.dir "d" ⟨0, none⟩
            [RTree.file "b" ⟨250, none⟩,
              RTree.dir "e" ⟨0, none⟩ [RTree.file "c" ⟨4096, none⟩]]] = (4446, 3)
    ∧ disk_usage_summary
        [RTree.file "a" ⟨100, none⟩,
          RTree.dir "d" ⟨0, none⟩
            [RTree.file "b" ⟨250, none⟩,
              RTree.dir "e" ⟨0, none⟩ [RTree.file "c" ⟨4096, none⟩]]] "/data"
        = ["4.3K /data", "Total files: 3"] := by
  have hgen : ∀ ts : List RTree,
      calculate_total_usage ts = ((fileSizes ts).sum, (fileSizes ts).length) := by
    intro ts
    induction ts using calculate_total_usage.induct with
    | case1 => simp [calculate_total_usage, fileSizes]
    | case2 n m rest ih =>
      simp [calculate_total_usage, fileSizes, ih]
      omega
    | case3 n m gc rest ih1 ih2 =>
      simp [calculate_total_usage, fileSizes, ih1, ih2]
  have hconc : calculate_total_usage
      [RTree.file "a" ⟨100, none⟩,
        RTree.dir "d" ⟨0, none⟩
          [RTree.file "b" ⟨250, none⟩,
            RTree.dir "e" ⟨0, none⟩ [RTree.file "c" ⟨4096, none⟩]]] = (4446, 3) := by
    rw [hgen]
    simp only [fileSizes]
    decide
  refine ⟨hgen, hconc, ?_⟩
  unfold disk_usage_summary
  rw [hconc]
  have hfmt : format_size 4446 = "4.3K" := by
    norm_num [format_size, sizeNum, sizeIdx, f64OfNat, sizeLoop, fmtOneDec, roundTE,
      qfloor, sizeUnits]
    decide
  rw [hfmt]
  rfl

/-! ## Lister: recursive listing over the tree store (StorageClient::list_recursive) -/

/-- Right-pad with spaces to the given width (Rust `{:<w}`). -/
def padR (s : String) (w : Nat) : String :=
  s ++ String.mk (List.replicate (w - s.length) ' ')

/-- Left-pad with spaces to the given width (Rust `{:>w}`). -/
def padL (s : String) (w : Nat) : String :=
  String.mk (List.replicate (w - s.length) ' ') ++ s

/-- The `Display` rendering of `FileInfo`:
`"{:<6} {:>10} {} {}"` of kind, size (`-` for directories), modification time
(`"Unknown"` when absent) and path. -/
def fileInfoLine (is_dir : Bool) (size : Nat) (modified : Option String)
    (p : String) : String :=
  padR (if is_dir then "DIR" else "FILE") 6 ++ " "
    ++ padL (if is_dir then "-" else format_size size) 10 ++ " "
    ++ modified.getD "Unknown" ++ " " ++ p

/-- `StorageClient::print_entry`: the long format renders `FileInfo`, the
short format just the entry path. -/
def print_entry (long : Bool) (p : String) (is_dir : Bool) (m : EMeta) : String :=
  if long then fileInfoLine is_dir m.size m.modified p else p

/-- `StorageClient::list_recursive` over the tree store: for each entry of the
listed level, in backend order: print it, and when it is a directory
immediately recurse into it before the remaining siblings. Returns the printed
lines in order. -/
def list_recursive (long : Bool) : List RTree → String → List String
  | [], _ => []
  | e :: rest, base =>
    print_entry long (e.entryPath base) e.isDir e.rmeta
      :: ((match e with
            | RTree.dir _ _ gc => list_recursive long gc (e.entryPath base)
            | RTree.file _ _ => [])
          ++ list_recursive long rest base)
termination_by l _ => sizeOf l

/-- `StorageClient::list_single_level` over the tree store. -/
def list_single_level_tree (long : Bool) (ts : List RTree) (base : String) :
    List String :=
  ts.map (fun e => print_entry long (e.entryPath base) e.isDir e.rmeta)

/-- The number of entries in a subtree. -/
def treeCount : List RTree → Nat
  | [] => 0
  | RTree.file _ _ :: rest => 1 + treeCount rest
  | RTree.dir _ _ gc :: rest => 1 + treeCount gc + treeCount rest
termination_by l => sizeOf l

/-- All entry paths of a subtree, parent first (the reference pre-order). -/
def allPaths : List RTree → String → List String
  | [], _ => []
  | RTree.file n _ :: rest, base => (base ++ n) :: allPaths rest base
  | RTree.dir n _ gc :: rest, base =>
    (base ++ n ++ "/") :: (allPaths gc (base ++ n ++ "/") ++ allPaths rest base)
termination_by l _ => sizeOf l

theorem list_recursive_length (long : Bool) (ts : List RTree) (base : String) :
    (list_recursive long ts base).length = treeCount ts := by
  induction ts, base using list_recursive.induct long with
  | case1 base => simp [list_recursive, treeCount]
  | case2 e rest base ih1 ih2 =>
    cases e with
    | file n m =>
      simp [list_recursive, treeCount, ih2]
      omega
    | dir n m gc =>
      have ih1b : (list_recursive long gc (RTree.entryPath base (RTree.dir n m gc))).length
          = treeCount gc := ih1
      simp [list_recursive, treeCount, ih1b, ih2]
      omega

theorem list_recursive_short_eq_allPaths (ts : List RTree) (base : String) :
    list_recursive false ts base = allPaths ts base := by
  induction ts, base using list_recursive.induct false with
  | case1 base => simp [list_recursive, allPaths]
  | case2 e rest base ih1 ih2 =>
    cases e with
    | file n m =>
      simp only [list_recursive, allPaths, ih2]
      rfl
    | dir n m gc =>
      have ih1b : list_recursive false gc (RTree.entryPath base (RTree.dir n m gc))
          = allPaths gc (RTree.entryPath base (RTree.dir n m gc)) := ih1
      simp only [list_recursive, allPaths]
      rw [ih1b, ih2]
      rfl

theorem list_recursive_split (long : Bool) (l₁ : List RTree) (e : RTree)
    (l₂ : List RTree) (base : String) :
    list_recursive long (l₁ ++ e :: l₂) base =
      list_recursive long l₁ base
        ++ print_entry long (e.entryPath base) e.isDir e.rmeta
          :: (list_recursive long e.children (e.entryPath base)
              ++ list_recursive long l₂ base) := by
  induction l₁ with
  | nil =>
    cases e with
    | file n m => simp [list_recursive, RTree.children]
    | dir n m gc => simp [list_recursive, RTree.children]
  | cons a l₁ ih =>
    cases a with
    | file n m =>
      simp only [List.cons_append, list_recursive, ih, List.append_assoc, List.cons_append]
    | dir n m gc =>
      simp only [List.cons_append, list_recursive, ih, List.append_assoc, List.cons_append]

/-- C9 (confirmed): recursive listing prints each entry exactly once (the line
count equals the entry count, and with distinct entry paths each path occurs
once), and emits depth-first pre-order: wherever the listed level splits as
`l₁ ++ e :: l₂`, the output is the lines of `l₁`, then `e`'s own line, then the
whole subtree of `e`, then the lines of `l₂` — so a directory's line precedes
all its descendants, which precede every later sibling's lines; within one
level the backend order is passed through unchanged. -/
theorem list_recursive_preorder (ts : List RTree) (base : String) (long : Bool) :
    (list_recursive long ts base).length = treeCount ts
    ∧ (∀ l₁ e l₂, ts = l₁ ++ e :: l₂ →
        list_recursive long ts base =
          list_recursive long l₁ base
            ++ print_entry long (e.entryPath base) e.isDir e.rmeta
              :: (list_recursive long e.children (e.entryPath base)
                  ++ list_recursive long l₂ base))
    ∧ ((allPaths ts base).Nodup → ∀ p ∈ allPaths ts base,
        (list_recursive false ts base).count p = 1) := by
  refine ⟨list_recursive_length long ts base, ?_, ?_⟩
  · intro l₁ e l₂ hsplit
    rw [hsplit]
    exact list_recursive_split long l₁ e l₂ base
  · intro hnd p hp
    rw [list_recursive_short_eq_allPaths]
    exact List.count_eq_one_of_mem hnd hp

/-- C9 witness: the theorem applied to a concrete nested tree. -/
theorem list_recursive_preorder_witness :
    (list_recursive false
        [RTree.dir "d" ⟨0, none⟩ [RTree.file "f" ⟨5, none⟩]] "").count "d/" = 1 := by
  have hallp : allPaths [RTree.dir "d" ⟨0, none⟩ [RTree.file "f" ⟨5, none⟩]] ""
      = ["d/", "d/f"] := by
    simp only [allPaths]
    rfl
  exact (list_recursive_preorder
      [RTree.dir "d" ⟨0, none⟩ [RTree.file "f" ⟨5, none⟩]] "" false).2.2
    (by rw [hallp]; decide) "d/" (by rw [hallp]; decide)

/-! ## Mirror-Downloader traversal (StorageClient::download_files / download_recursive) -/

/-- The `Path` components of a Unix path (no prefixes): empty and medial `"."`
segments are dropped; a leading `"."` of a relative path is kept (`CurDir`). -/
def pathSegs (p : String) : List (List Char) :=
  match (splitSlash p.toList).filter (fun s => !s.isEmpty) with
  | [] => []
  | first :: rest =>
    let tail := rest.filter (fun s => s != ['.'])
    if first = ['.'] then (if strStarts p "/" then tail else first :: tail)
    else first :: tail

/-- Render components back to a path string, with a leading separator when the
path was absolute (how Rust re-renders the remaining components). -/
def renderPath (root : Bool) (segs : List (List Char)) : String :=
  (if root then "/" else "") ++ String.mk ((segs.intersperse ['/']).flatten)

/-- Rust `Path::parent` on Unix: the path minus its final component; `none` for
the root path and the empty path, `some ""` when only one relative component
remains. -/
def rustParent (p : String) : Option String :=
  match pathSegs p with
  | [] => none
  | s :: ss => some (renderPath (strStarts p "/") ((s :: ss).dropLast))

/-- A local-filesystem action of the downloader. -/
inductive DAction where
  | createDir (p : String)
  | writeFile (dst src : String)
deriving DecidableEq

/-- `StorageClient::download_recursive` over the tree store: list one level of
`remote_path`; for each entry, strip `remote_path` (the per-call listed path)
from `entry.path()` with the unstripped path as fallback, join the suffix onto
`local_path`, and then either create the directory and recurse with
`(entry.path(), local_path)` — the child becomes the next strip base while the
local destination root is passed along unchanged — or create the file's parent
directory and write the bytes to the joined destination. Returns the local
actions in order (each `writeFile` also carries the remote source of the
`Downloaded: src → dst` report). -/
def download_recursive : List RTree → String → String → List DAction
  | [], _, _ => []
  | e :: rest, remote_path, local_path =>
    let remote_file_path := e.entryPath remote_path
    let relative_path := (rustStrip remote_file_path remote_path).getD remote_file_path
    let local_file_path := rustJoin local_path relative_path
    (match e with
      | RTree.dir _ _ gc =>
        DAction.createDir local_file_path
          :: download_recursive gc remote_file_path local_path
      | RTree.file _ _ =>
        (match rustParent local_file_path with
          | some parentDir => [DAction.createDir parentDir]
          | none => [])
          ++ [DAction.writeFile local_file_path remote_file_path])
      ++ download_recursive rest remote_path local_path
termination_by l _ _ => sizeOf l

/-- `StorageClient::download_files`: ensure the local root exists, then run the
recursive mirror. -/
def download_files (ts : List RTree) (remote_path local_path : String) :
    List DAction :=
  DAction.createDir local_path :: download_recursive ts remote_path local_path

/-- C2 (code bug): downloading the remote subtree `r/` holding `a/g.txt` into
`dest` writes the nested file to `dest/g.txt`, not `dest/a/g.txt`: the
recursive call receives `(entry.path(), local_path)`, so nested entries are
stripped against their immediate parent while the join target stays the
original destination root — the tree is flattened, against the claim and spec
§4.3 step 3 (every recursive call recomputes relativity against the original
remote root) and the §8 round-trip layout. The per-entry computation also
applies the raw `strip_prefix` instead of the Path Algebra `relative`: when
`entry.path` equals the listed path (a single-file download lists the file
itself) the destination is the bare root with a trailing separator rather than
root/<final segment>, and a suffix that keeps its leading separator makes the
join replace the destination root entirely. -/
theorem download_recursive_flattens :
    download_recursive
        [RTree.dir "a" ⟨0, none⟩ [RTree.file "g.txt" ⟨3, none⟩]] "r/" "dest"
      = [DAction.createDir "dest/a/",
          DAction.createDir "dest",
          DAction.writeFile "dest/g.txt" "r/a/g.txt"]
    ∧ rustJoin "dest" (get_relative_path "r/a/g.txt" "r/") = "dest/a/g.txt"
    ∧ ("dest/g.txt" : String) ≠ "dest/a/g.txt"
    ∧ download_dest "dest" "a/b.txt" "a/b.txt" = "dest/"
    ∧ rustJoin "dest" (get_relative_path "a/b.txt" "a/b.txt") = "dest/b.txt"
    ∧ download_dest "dest" "a/b" "a/b/c.txt" = "/c.txt" := by
  refine ⟨?_, by decide, by decide, by decide, by decide, by decide⟩
  simp only [download_recursive]
  decide

/-! ## Streaming upload (StorageClient::upload_file_streaming)

The local file is its byte content; the observable behaviour is the ordered
sequence of events: opening the remote writer, each chunk write, each progress
line, closing the writer, and the final report. -/

/-- One observable event of `upload_file_streaming`. -/
inductive UEvent where
  | openW
  | wchunk (bytes : List Nat)
  | progress (pct : Nat)
  | closeW
  | finalReport (total : Nat)
deriving DecidableEq

/-- The read/write loop: read up to 8192 bytes (EOF = zero bytes read breaks),
write the chunk, bump `total_bytes`, and emit a progress percentage when the
file is non-empty and `total_bytes` is a multiple of `8192 * 100`. Returns the
events and the final `total_bytes`. -/
def stream_go (file_size : Nat) : List Nat → Nat → List UEvent × Nat
  | [], total => ([], total)
  | c :: cs, total =>
    let chunk := (c :: cs).take 8192
    let total2 := total + chunk.length
    let rest := stream_go file_size ((c :: cs).drop 8192) total2
    (UEvent.wchunk chunk
      :: ((if 0 < file_size ∧ total2 % 819200 = 0
            then [UEvent.progress (total2 * 100 / file_size)] else [])
          ++ rest.1),
      rest.2)
termination_by content _ => content.length
decreasing_by
  simp only [List.length_drop, List.length_cons]
  omega

/-- `upload_file_streaming`: open the remote writer, run the chunk loop, close
the writer, report the final byte total. -/
def upload_file_streaming (content : List Nat) : List UEvent :=
  UEvent.openW :: (stream_go content.length content 0).1
    ++ [UEvent.closeW, UEvent.finalReport (stream_go content.length content 0).2]

/-- The bytes of the remote object finalized by `close`: the concatenation of
the written chunks. -/
def writtenBytes (evs : List UEvent) : List Nat :=
  (evs.map (fun e =>
    match e with
    | UEvent.wchunk b => b
    | _ => [])).flatten

def isProgressEvent : UEvent → Bool
  | UEvent.progress _ => true
  | _ => false

def isChunkEvent : UEvent → Bool
  | UEvent.wchunk _ => true
  | _ => false

/-- C8 (confirmed): for an empty source file the writer is opened and closed
with no chunk written, no progress event is emitted (the percentage computation
is never reached, so no division by zero), the final reported total is 0, and
the finalized remote object holds 0 bytes. -/
theorem upload_streaming_zero_length :
    upload_file_streaming [] = [UEvent.openW, UEvent.closeW, UEvent.finalReport 0]
    ∧ (upload_file_streaming []).filter isProgressEvent = []
    ∧ (upload_file_streaming []).filter isChunkEvent = []
    ∧ writtenBytes (upload_file_streaming []) = [] := by
  have h : stream_go 0 [] 0 = ([], 0) := by
    simp [stream_go]
  have h2 : upload_file_streaming [] = [UEvent.openW, UEvent.closeW, UEvent.finalReport 0] := by
    unfold upload_file_streaming
    rw [show ([] : List Nat).length = 0 from rfl, h]
    rfl
  refine ⟨h2, ?_, ?_, ?_⟩ <;> rw [h2] <;> rfl

/-! ## Lister over an opaque backend (StorageClient::list_directory)

Here the backend is kept opaque, exactly as the code sees it: a function from
a path to the entries of one level. The recursion of `list_recursive` is run
with explicit fuel (any bound on the store depth; the claim needs only the
first level). `none` models fuel exhaustion and cannot occur on finite stores. -/

/-- One entry as returned by the backend's `list`. -/
structure BEntry where
  path : String
  isDir : Bool
  meta : EMeta

/-- `StorageClient::list_single_level`: print each entry of one level. -/
def list_single_level (B : String → List BEntry) (p : String) (long : Bool) :
    List String :=
  (B p).map (fun e => print_entry long e.path e.isDir e.meta)

/-- `StorageClient::list_recursive` over the opaque backend, fuel-indexed. -/
def list_recursive_fuel (B : String → List BEntry) :
    Nat → String → Bool → Option (List String)
  | 0, _, _ => none
  | fuel + 1, p, long =>
    (B p).foldlM
      (fun acc e =>
        if e.isDir then
          (list_recursive_fuel B fuel e.path long).map
            (fun sub => acc ++ print_entry long e.path e.isDir e.meta :: sub)
        else some (acc ++ [print_entry long e.path e.isDir e.meta]))
      []

/-- `StorageClient::list_directory`: dispatch on the `recursive` flag. -/
def list_directory (B : String → List BEntry) (fuel : Nat) (p : String)
    (long recursive : Bool) : Option (List String) :=
  if recursive then list_recursive_fuel B fuel p long
  else some (list_single_level B p long)

/-- C5 (confirmed): against a backend whose `list` of the non-existent path
yields an empty sequence (the stated assumption, §6 of the spec), both the
recursive and the non-recursive mode of `list_directory` succeed with zero
output lines — the not-found condition never surfaces as an error. -/
theorem list_directory_absorbs_missing (B : String → List BEntry) (p : String)
    (long : Bool) (fuel : Nat) (hB : B p = []) (hf : 0 < fuel) :
    list_directory B fuel p long true = some []
    ∧ list_directory B fuel p long false = some [] := by
  obtain ⟨f, rfl⟩ : ∃ f, fuel = f + 1 := ⟨fuel - 1, by omega⟩
  constructor
  · unfold list_directory
    rw [if_pos rfl]
    unfold list_recursive_fuel
    rw [hB]
    rfl
  · unfold list_directory
    rw [if_neg (by simp)]
    unfold list_single_level
    rw [hB]
    rfl

/-- C5 witness: the theorem applied to a concrete empty-at-path backend. -/
theorem list_directory_absorbs_missing_witness :
    list_directory (fun _ => []) 1 "missing/" false true = some []
    ∧ list_directory (fun _ => []) 1 "missing/" false false = some [] :=
  list_directory_absorbs_missing (fun _ => []) "missing/" false 1 rfl (by norm_num)

/-! ## Configuration and operator construction (StorageConfig / build_operator) -/

/-- The storage providers. -/
inductive StorageProvider where
  | oss
  | s3
  | fs
deriving DecidableEq

/-- `StorageConfig` from src/storage.rs. -/
structure StorageConfig where
  provider : StorageProvider
  bucket : String
  access_key_id : Option String
  access_key_secret : Option String
  endpoint : Option String
  region : Option String
  root_path : Option String

/-- `StorageConfig::fs`: the filesystem configuration constructor. -/
def StorageConfig.fs (root_path : String) : StorageConfig :=
  ⟨StorageProvider.fs, "local", none, none, none, none, some root_path⟩

/-- The operator configuration assembled by `build_operator` (the set of
options the code passes to the corresponding OpenDAL builder; an unset
builder option is `none`). -/
inductive OperatorSpec where
  | oss (bucket : String) (access_key_id access_key_secret endpoint : Option String)
  | s3 (bucket : String) (access_key_id access_key_secret region endpoint : Option String)
  | fsOp (root : String)
deriving DecidableEq

/-- `StorageClient::build_operator`: dispatch on the provider and assemble the
builder options; for `Fs` the root falls back to `"./"` when `root_path` is
unset. (`Operator::new` failures belong to the external backend; the
configuration step itself is total.) -/
def build_operator (c : StorageConfig) : Except String OperatorSpec :=
  match c.provider with
  | StorageProvider.oss =>
    .ok (.oss c.bucket c.access_key_id c.access_key_secret c.endpoint)
  | StorageProvider.s3 =>
    .ok (.s3 c.bucket c.access_key_id c.access_key_secret c.region c.endpoint)
  | StorageProvider.fs =>
    .ok (.fsOp (c.root_path.getD "./"))

/-- C10 (confirmed): for the Fs provider `build_operator` always succeeds and
silently defaults a missing `root_path` to `"./"` (the process's current
working directory) instead of rejecting the configuration, and
`StorageConfig::fs` always sets the placeholder bucket `"local"`. -/
theorem build_operator_fs_spec (c : StorageConfig) (r : String) :
    (c.provider = StorageProvider.fs →
      build_operator c = .ok (.fsOp (c.root_path.getD "./")))
    ∧ (c.provider = StorageProvider.fs → c.root_path = none →
      build_operator c = .ok (.fsOp "./"))
    ∧ (StorageConfig.fs r).bucket = "local"
    ∧ (StorageConfig.fs r).provider = StorageProvider.fs
    ∧ (StorageConfig.fs r).root_path = some r := by
  refine ⟨?_, ?_, rfl, rfl, rfl⟩
  · intro h
    simp [build_operator, h]
  · intro h hr
    simp [build_operator, h, hr]

/-- C10 witness: the theorem applied to a concrete Fs config with no root. -/
theorem build_operator_fs_spec_witness :
    build_operator ⟨StorageProvider.fs, "local", none, none, none, none, none⟩
      = .ok (OperatorSpec.fsOp "./") :=
  (build_operator_fs_spec
    ⟨StorageProvider.fs, "local", none, none, none, none, none⟩ "x").2.1 rfl rfl

end Ossify
